import Mathlib

/-!
Verification of the drozoSearch incremental indexing and ranked retrieval
core against its natural-language specification.

The Rust sources are shallowly embedded:
* `src/index/writer.rs` — `IndexWriter.addFileDoc` (document construction of
  `IndexWriter::add_file`);
* `src/indexer/content.rs` — `isTextFile`, `isBinaryContent`, `readContent`;
* `src/index/reader.rs` — `computeRank` and the `SearchEngine::search`
  pipeline;
* `src/indexer/coordinator.rs` — the reconcile run `runIndexing` as a fold
  of `processPath` steps over the walker stream, with the tantivy writer
  modelled as an operation log (`WriterOp`) applied in transaction order.

External collaborators (the filesystem, tantivy's parser/collector and the
success of individual writer calls) are oracles supplied in environment
records; machine integers are modelled as `Nat`/`Int` (the counters involved
stay far below 2^64, and the claims checked here do not hinge on wraparound),
and `f32` arithmetic is modelled over `ℝ`.
-/

/-! ## Paths

A filesystem path is modelled as its list of components (as produced by
Rust's `Path::components`).  `render` models `to_string_lossy`, the string
used by the coordinator as the document identity. -/

structure PathM where
  components : List String
  deriving DecidableEq

def PathM.render (p : PathM) : String :=
  String.intercalate "/" p.components

/-- Model of Rust `Path::file_name`: the last component, absent when the
path is empty or terminates in `..`. -/
def PathM.fileNameOpt (p : PathM) : Option String :=
  match p.components.getLast? with
  | some s => if s = ".." then none else some s
  | none => none

/-- The part of a character list strictly after its last `'.'`, if any dot
occurs.  Helper for the Rust `Path::extension` semantics. -/
def extAfterLastDot : List Char → Option (List Char)
  | [] => none
  | c :: t =>
    match extAfterLastDot t with
    | some e => some e
    | none => if c = '.' then some t else none

/-- Rust `Path::extension` on a file name: `none` when the name has no dot
or when the only dot is the leading one (hidden files). -/
def extOfName : List Char → Option (List Char)
  | [] => none
  | _ :: t => extAfterLastDot t

def PathM.extension (p : PathM) : Option String :=
  (p.fileNameOpt).bind (fun n => (extOfName n.data).map (fun e => String.mk e))

/-! ## Metadata and documents (`src/indexer/metadata.rs`, `src/index/writer.rs`) -/

structure FileMetadata where
  size : Nat
  modified : Int
  created : Int
  permissions : String
  isDir : Bool
  deriving DecidableEq

/-- The indexed document, with every field stored by
`IndexWriter::add_file` (the `content` field is indexed but not stored;
it is kept here to state content-related invariants). -/
structure Doc where
  fileName : String
  filePath : String
  extension : String
  fileSize : Nat
  modified : Int
  created : Int
  permissions : String
  isDir : Nat
  content : Option String
  deriving DecidableEq

/-- Embedding of the document construction in `IndexWriter::add_file`
(`src/index/writer.rs`, lines 28–63): `file_name` and `extension` come from
the path accessors with `unwrap_or_default`, `is_dir` is stored as `1`/`0`,
and `content` is added only when present. -/
def IndexWriter.addFileDoc (p : PathM) (meta : FileMetadata) (content : Option String) : Doc :=
  { fileName := (p.fileNameOpt).getD ""
  , filePath := p.render
  , extension := (p.extension).getD ""
  , fileSize := meta.size
  , modified := meta.modified
  , created := meta.created
  , permissions := meta.permissions
  , isDir := if meta.isDir then 1 else 0
  , content := content }

/-- ASCII lowercasing of a string, character by character. -/
def lowerAscii (s : String) : String :=
  String.mk (s.data.map Char.toLower)

/-- The extension field as the specification describes it (§3: lower-cased
extension, empty if none).  This is the spec-side definition compared
against the source-side `IndexWriter.addFileDoc`. -/
def specLowerExtension (p : PathM) : String :=
  ((p.extension).map lowerAscii).getD ""

/-- A concrete metadata record used by the counterexamples and witnesses. -/
def metaFile : FileMetadata :=
  { size := 11, modified := 100, created := 50, permissions := "rw-r--r--", isDir := false }

/-! Auxiliary facts about `extAfterLastDot` for the amended C2 statement. -/

theorem extAfterLastDot_eq_none_no_dot :
    ∀ l : List Char, extAfterLastDot l = none → '.' ∉ l := by
  intro l
  induction l with
  | nil => intro _ h; cases h
  | cons c t ih =>
    intro h hmem
    unfold extAfterLastDot at h
    cases h' : extAfterLastDot t with
    | some e => rw [h'] at h; cases h
    | none =>
      rw [h'] at h
      by_cases hc : c = '.'
      · simp [hc] at h
      · cases hmem with
        | head => exact hc rfl
        | tail _ hm => exact ih h' hm

theorem extAfterLastDot_split :
    ∀ (l e : List Char), extAfterLastDot l = some e →
      ∃ pre : List Char, l = pre ++ '.' :: e ∧ '.' ∉ e := by
  intro l
  induction l with
  | nil => intro e h; cases h
  | cons c t ih =>
    intro e h
    unfold extAfterLastDot at h
    cases h' : extAfterLastDot t with
    | some e' =>
      rw [h'] at h
      have he : e' = e := Option.some.inj h
      subst he
      obtain ⟨pre, hpre, hnd⟩ := ih e' h'
      exact ⟨c :: pre, by simp [hpre], hnd⟩
    | none =>
      rw [h'] at h
      by_cases hc : c = '.'
      · simp only [hc, if_pos rfl] at h
        have he : t = e := Option.some.inj h
        subst he
        exact ⟨[], by simp [hc], extAfterLastDot_eq_none_no_dot t h'⟩
      · simp [hc] at h

/-- C2 (counterexample): for the path `docs/NOTES.TXT` the stored extension
field is the verbatim `"TXT"`, not the lower-cased `"txt"` the claim
prescribes — `IndexWriter::add_file` never lowercases the extension. -/
theorem c2_extension_not_lowercased :
    (IndexWriter.addFileDoc ⟨["docs", "NOTES.TXT"]⟩ metaFile none).extension = "TXT"
    ∧ specLowerExtension ⟨["docs", "NOTES.TXT"]⟩ = "txt"
    ∧ (IndexWriter.addFileDoc ⟨["docs", "NOTES.TXT"]⟩ metaFile none).extension
        ≠ specLowerExtension ⟨["docs", "NOTES.TXT"]⟩ := by
  refine ⟨?_, ?_, ?_⟩ <;> decide

/-- C2 (amended): for every path indexed by `add_file`, the stored extension
field equals the file's extension verbatim (case preserved, as produced by
`Path::extension`), and equals the empty string when the path has no
extension; when an extension `e` exists, the file name decomposes as
`pre ++ "." ++ e` with `e` dot-free (so `e` is exactly the part after the
last dot). -/
theorem c2_extension_verbatim (p : PathM) (m : FileMetadata) (c : Option String) :
    (IndexWriter.addFileDoc p m c).extension = (p.extension).getD ""
    ∧ (p.extension = none → (IndexWriter.addFileDoc p m c).extension = "")
    ∧ (∀ e : String, p.extension = some e →
        ∃ pre : List Char,
          ((p.fileNameOpt).getD "").data = pre ++ '.' :: e.data ∧ '.' ∉ e.data) := by
  refine ⟨rfl, ?_, ?_⟩
  · intro h
    simp [IndexWriter.addFileDoc, h]
  · intro e he
    unfold PathM.extension at he
    cases hn : p.fileNameOpt with
    | none => rw [hn] at he; cases he
    | some n =>
      rw [hn] at he
      have he2 : (extOfName n.data).map (fun e => String.mk e) = some e := he
      cases hx : extOfName n.data with
      | none => rw [hx] at he2; cases he2
      | some ec =>
        rw [hx] at he2
        have hec : String.mk ec = e := Option.some.inj he2
        unfold extOfName at hx
        cases hd : n.data with
        | nil => rw [hd] at hx; cases hx
        | cons c0 t =>
          rw [hd] at hx
          obtain ⟨pre, hpre, hnd⟩ := extAfterLastDot_split t ec hx
          refine ⟨c0 :: pre, ?_, ?_⟩
          · simp only [hn, Option.getD_some, hd, hpre, ← hec]
            rfl
          · rw [← hec]; exact hnd

/-- C2 (witness for the amended theorem): concrete evaluation at
`a/b.rs`. -/
theorem c2_extension_verbatim_witness :
    (IndexWriter.addFileDoc ⟨["a", "b.rs"]⟩ metaFile none).extension
      = ((PathM.extension ⟨["a", "b.rs"]⟩)).getD "" := by
  exact (c2_extension_verbatim ⟨["a", "b.rs"]⟩ metaFile none).1

/-! ## Content classifier (`src/indexer/content.rs`)

The filesystem is modelled as a consistent snapshot: a file is either
absent (stat fails) or a byte list, whose `metadata.len()` is its length
and whose reads return its bytes.  `read_to_string` succeeds exactly when
the bytes are valid UTF-8, returning the same bytes (a Rust `String` is its
UTF-8 byte sequence), so `readContent` returns the byte list. -/

/-- The closed whitelist `TEXT_EXTENSIONS` of `src/indexer/content.rs`. -/
def textExtensions : List String :=
  [ "rs", "py", "js", "ts", "tsx", "jsx", "go", "c", "h", "cpp", "hpp"
  , "java", "rb", "php", "swift", "kt", "scala", "r", "m", "mm"
  , "cs", "fs", "vb", "lua", "pl", "pm", "hs", "erl", "ex", "exs"
  , "clj", "cljs", "dart", "zig", "nim", "v", "d", "ada", "adb"
  , "sh", "bash", "zsh", "fish", "ps1", "bat", "cmd"
  , "toml", "yaml", "yml", "json", "xml", "ini", "cfg", "conf"
  , "env", "properties", "gradle"
  , "html", "htm", "css", "scss", "sass", "less", "vue", "svelte"
  , "md", "markdown", "txt", "rst", "tex", "org", "adoc"
  , "csv", "tsv", "sql", "graphql", "gql"
  , "log", "diff", "patch", "gitignore", "dockerignore"
  , "dockerfile", "makefile", "cmake", "meson" ]

/-- Embedding of `is_text_file`: lower-cased extension in the whitelist, or
lower-cased basename among the known extensionless file names. -/
def isTextFile (p : PathM) : Bool :=
  (match p.extension with
   | some ext => textExtensions.contains (lowerAscii ext)
   | none => false)
  ||
  (match p.fileNameOpt with
   | some name =>
     let n := lowerAscii name
     n = "makefile" || n = "dockerfile" || n = "gemfile" || n = "rakefile"
       || n = "procfile" || n = "vagrantfile" || n = "justfile" || n = "cmakelists.txt"
   | none => false)

/-- Standard UTF-8 validation, byte-state formulation: `k` is the number
of continuation bytes still expected, with the next one constrained to
`[lo, hi]` (later ones to the plain continuation range `[0x80, 0xBF]`).
The start-state transitions encode exactly Rust's `String::from_utf8`
acceptance (rejecting overlong forms, surrogates and values above
U+10FFFF). -/
def validUtf8Aux : List Nat → Nat → Nat → Nat → Bool
  | [], k, _, _ => k == 0
  | b :: t, 0, _, _ =>
    if b < 0x80 then validUtf8Aux t 0 0 0
    else if 0xC2 ≤ b ∧ b ≤ 0xDF then validUtf8Aux t 1 0x80 0xBF
    else if b = 0xE0 then validUtf8Aux t 2 0xA0 0xBF
    else if (0xE1 ≤ b ∧ b ≤ 0xEC) ∨ (0xEE ≤ b ∧ b ≤ 0xEF) then validUtf8Aux t 2 0x80 0xBF
    else if b = 0xED then validUtf8Aux t 2 0x80 0x9F
    else if b = 0xF0 then validUtf8Aux t 3 0x90 0xBF
    else if 0xF1 ≤ b ∧ b ≤ 0xF3 then validUtf8Aux t 3 0x80 0xBF
    else if b = 0xF4 then validUtf8Aux t 3 0x80 0x8F
    else false
  | b :: t, k + 1, lo, hi =>
    if lo ≤ b ∧ b ≤ hi then validUtf8Aux t k 0x80 0xBF else false

/-- A byte sequence is valid UTF-8, as checked by Rust's
`fs::read_to_string`. -/
def validUtf8 (l : List Nat) : Bool := validUtf8Aux l 0 0 0

/-- Embedding of `read_content` (`src/indexer/content.rs`, lines 69–85):
stat, size window, classifier, NUL scan of the first 8 KiB
(`is_binary_content`, lines 53–66), then UTF-8 decoding.  `file` is the
stat/read oracle: `none` when the path cannot be stat-ed. -/
def readContent (file : Option (List Nat)) (p : PathM) (maxSize : Nat) : Option (List Nat) :=
  match file with
  | none => none
  | some bytes =>
    if bytes.length > maxSize ∨ bytes.length = 0 then none
    else if !(isTextFile p) then none
    else if (bytes.take 8192).contains 0 then none
    else if validUtf8 bytes then some bytes else none

/-- C5: `read_content(path, max_size)` returns text content if and only if
the stat succeeds, `0 < size ≤ max_size`, the classifier accepts the path,
the first 8 KiB contain no NUL byte, and the full file decodes as UTF-8;
on any failure it returns `none`. -/
theorem c5_read_content_iff (file : Option (List Nat)) (p : PathM) (maxSize : Nat)
    (c : List Nat) :
    readContent file p maxSize = some c ↔
      (file = some c ∧ 0 < c.length ∧ c.length ≤ maxSize ∧ isTextFile p = true
        ∧ (c.take 8192).contains 0 = false ∧ validUtf8 c = true) := by
  constructor
  · intro h
    cases file with
    | none => simp [readContent] at h
    | some bytes =>
      replace h : (if bytes.length > maxSize ∨ bytes.length = 0 then (none : Option (List Nat))
          else if (!isTextFile p) then none
          else if (bytes.take 8192).contains 0 then none
          else if validUtf8 bytes then some bytes else none) = some c := h
      by_cases h1 : bytes.length > maxSize ∨ bytes.length = 0
      · rw [if_pos h1] at h
        simp at h
      · rw [if_neg h1] at h
        by_cases h2 : isTextFile p = true
        · rw [if_neg (show ¬((!isTextFile p) = true) by simp [h2])] at h
          by_cases h3 : (bytes.take 8192).contains 0 = true
          · rw [if_pos h3] at h
            simp at h
          · rw [if_neg h3] at h
            by_cases h4 : validUtf8 bytes = true
            · rw [if_pos h4] at h
              obtain rfl : bytes = c := Option.some.inj h
              exact ⟨rfl, by omega, by omega, h2, by simpa using h3, h4⟩
            · rw [if_neg h4] at h
              simp at h
        · have h2f : isTextFile p = false := by
            revert h2; cases isTextFile p <;> simp
          rw [if_pos (show (!isTextFile p) = true by simp [h2f])] at h
          simp at h
  · rintro ⟨hf, hpos, hle, htxt, hnul, hu⟩
    subst hf
    show (if c.length > maxSize ∨ c.length = 0 then none
          else if (!isTextFile p) then none
          else if (c.take 8192).contains 0 then none
          else if validUtf8 c then some c else none) = some c
    rw [if_neg (show ¬(c.length > maxSize ∨ c.length = 0) by omega)]
    rw [if_neg (show ¬((!isTextFile p) = true) by simp [htxt])]
    rw [if_neg (show ¬((c.take 8192).contains 0 = true) by simpa using hnul)]
    rw [if_pos hu]

/-! ## Composite ranking (`src/index/reader.rs`, `compute_rank`)

`f32`/`f64` arithmetic is modelled over `ℝ` (`ln` is `Real.log`); the
embedding states the exact arithmetic expression the code computes, with
the source's intermediate `let` bindings inlined. -/

/-- Model of Rust `str::rsplit_once('.')`: split at the last `'.'`. -/
def rsplitOnceDot : List Char → Option (List Char × List Char)
  | [] => none
  | c :: t =>
    match rsplitOnceDot t with
    | some (s, e) => some (c :: s, e)
    | none => if c = '.' then some ([], t) else none

/-- The stem as `compute_rank` computes it:
`rsplit_once('.').map(|(s, _)| s).unwrap_or(name)`. -/
def stemSrc (name : List Char) : List Char :=
  match rsplitOnceDot name with
  | some (s, _) => s
  | none => name

/-- Model of Rust `str::starts_with` (`startsWithL hay pat` is true when
`hay` begins with `pat`). -/
def startsWithL : List Char → List Char → Bool
  | _, [] => true
  | [], _ :: _ => false
  | a :: s, b :: t => a = b && startsWithL s t

/-- Model of Rust `str::contains` for string patterns. -/
def containsSub : List Char → List Char → Bool
  | [], pat => startsWithL [] pat
  | a :: t, pat => startsWithL (a :: t) pat || containsSub t pat

/-- Embedding of `compute_rank` (`src/index/reader.rs`, lines 144–220),
argument for argument.  Signals, in source order: normalized BM25, exact
name bonus (with the `rsplit_once` stem fallback), starts-with bonus,
contains bonus, recency (log-decay of the age clamped below at one
second), depth penalty, and the file-over-directory bonus. -/
noncomputable def computeRank (bm25 : ℝ) (queryLower fileNameLower : List Char)
    (path : PathM) (modifiedTs : Int) (isDir : Bool) (nowTs : Int) : ℝ :=
  (bm25 / (bm25 + 10.0)) * 2.0
  + (if fileNameLower = queryLower then (1.0 : ℝ)
     else if stemSrc fileNameLower = queryLower then 0.8 else 0.0) * 5.0
  + (if (if fileNameLower = queryLower then (1.0 : ℝ)
         else if stemSrc fileNameLower = queryLower then 0.8 else 0.0) = 0.0
        ∧ startsWithL fileNameLower queryLower = true then (0.5 : ℝ) else 0.0) * 2.0
  + (if (if fileNameLower = queryLower then (1.0 : ℝ)
         else if stemSrc fileNameLower = queryLower then 0.8 else 0.0) = 0.0
        ∧ (if (if fileNameLower = queryLower then (1.0 : ℝ)
               else if stemSrc fileNameLower = queryLower then 0.8 else 0.0) = 0.0
              ∧ startsWithL fileNameLower queryLower = true then (0.5 : ℝ) else 0.0) = 0.0
        ∧ containsSub fileNameLower queryLower = true then (0.3 : ℝ) else 0.0) * 1.5
  + (1.0 / (1.0 + max (Real.log ((((max (nowTs - modifiedTs) 1 : Int) : ℝ) / 3600.0) / 24.0)) 0.0)) * 0.8
  + (1.0 / (1.0 + max (((path.components.length : ℝ)) - 3.0) 0.0 * 0.08)) * 0.4
  + (if isDir then (0.0 : ℝ) else 0.1)

/-- The stem as the specification words it: everything before the last
`'.'` (the whole name when it has no dot). -/
def stemSpec (name : List Char) : List Char :=
  if name.contains '.' then (((name.reverse).dropWhile (fun c => c != '.')).drop 1).reverse
  else name

/-- The composite score exactly as §4.7.1 of the specification writes it:
`2.0·bm25_norm + 5.0·exact + 2.0·starts_with + 1.5·contains + 0.8·recency
+ 0.4·depth_penalty + type_bonus`, with each signal defined by the spec's
own wording.  This is the spec-side definition compared against the
source-side `computeRank`. -/
noncomputable def specScore (bm25 : ℝ) (queryLower fileNameLower : List Char)
    (path : PathM) (modifiedTs : Int) (isDir : Bool) (nowTs : Int) : ℝ :=
  2.0 * (bm25 / (bm25 + 10.0))
  + 5.0 * (if fileNameLower = queryLower then (1.0 : ℝ)
           else if stemSpec fileNameLower = queryLower then 0.8 else 0.0)
  + 2.0 * (if (if fileNameLower = queryLower then (1.0 : ℝ)
               else if stemSpec fileNameLower = queryLower then 0.8 else 0.0) = 0.0
              ∧ startsWithL fileNameLower queryLower = true then (0.5 : ℝ) else 0.0)
  + 1.5 * (if (if fileNameLower = queryLower then (1.0 : ℝ)
               else if stemSpec fileNameLower = queryLower then 0.8 else 0.0) = 0.0
              ∧ (if (if fileNameLower = queryLower then (1.0 : ℝ)
                     else if stemSpec fileNameLower = queryLower then 0.8 else 0.0) = 0.0
                    ∧ startsWithL fileNameLower queryLower = true then (0.5 : ℝ) else 0.0) = 0.0
              ∧ containsSub fileNameLower queryLower = true then (0.3 : ℝ) else 0.0)
  + 0.8 * (1.0 / (1.0 + max 0.0 (Real.log ((((max 1 (nowTs - modifiedTs) : Int) : ℝ) / 3600.0) / 24.0))))
  + 0.4 * (1.0 / (1.0 + max 0.0 (((path.components.length : ℝ)) - 3.0) * 0.08))
  + (if isDir then (0.0 : ℝ) else 0.1)

/-! The two stem computations agree. -/

theorem rsplitOnceDot_eq_none_no_dot :
    ∀ l : List Char, rsplitOnceDot l = none → '.' ∉ l := by
  intro l
  induction l with
  | nil => intro _ h; cases h
  | cons c t ih =>
    intro h hmem
    unfold rsplitOnceDot at h
    cases h' : rsplitOnceDot t with
    | some pr => rw [h'] at h; cases h
    | none =>
      rw [h'] at h
      by_cases hc : c = '.'
      · simp [hc] at h
      · cases hmem with
        | head => exact hc rfl
        | tail _ hm => exact ih h' hm

theorem rsplitOnceDot_split :
    ∀ (l s e : List Char), rsplitOnceDot l = some (s, e) →
      l = s ++ '.' :: e ∧ '.' ∉ e := by
  intro l
  induction l with
  | nil => intro s e h; cases h
  | cons c t ih =>
    intro s e h
    unfold rsplitOnceDot at h
    cases h' : rsplitOnceDot t with
    | some pr =>
      rw [h'] at h
      obtain ⟨s', e'⟩ := pr
      obtain ⟨hs, he⟩ := Prod.mk.inj (Option.some.inj h)
      subst hs; subst he
      obtain ⟨hpre, hnd⟩ := ih s' e' h'
      exact ⟨by simp [hpre], hnd⟩
    | none =>
      rw [h'] at h
      by_cases hc : c = '.'
      · simp only [hc, if_pos rfl] at h
        obtain ⟨hs, he⟩ := Prod.mk.inj (Option.some.inj h)
        subst hs; subst he
        exact ⟨by simp [hc], rsplitOnceDot_eq_none_no_dot t h'⟩
      · simp [hc] at h

theorem rsplitOnceDot_isSome_of_mem :
    ∀ l : List Char, '.' ∈ l → (rsplitOnceDot l).isSome := by
  intro l
  induction l with
  | nil => intro h; cases h
  | cons c t ih =>
    intro hmem
    unfold rsplitOnceDot
    cases h' : rsplitOnceDot t with
    | some pr => simp
    | none =>
      cases hmem with
      | head => simp
      | tail _ hm => simpa [h'] using ih hm

theorem dropWhile_append_dot (a b : List Char) (ha : '.' ∉ a) :
    ((a ++ '.' :: b).dropWhile (fun c => c != '.')) = '.' :: b := by
  induction a with
  | nil => simp [List.dropWhile]
  | cons x xs ih =>
    have hx : x ≠ '.' := fun h => ha (h ▸ List.mem_cons_self x xs)
    have hxs : '.' ∉ xs := fun h => ha (List.mem_cons_of_mem x h)
    simp only [List.cons_append, List.dropWhile]
    rw [show (x != '.') = true by simp [hx]]
    exact ih hxs

theorem stemSrc_eq_stemSpec (name : List Char) : stemSrc name = stemSpec name := by
  by_cases hdot : '.' ∈ name
  · have hsome := rsplitOnceDot_isSome_of_mem name hdot
    cases hr : rsplitOnceDot name with
    | none => rw [hr] at hsome; cases hsome
    | some pr =>
      obtain ⟨s, e⟩ := pr
      obtain ⟨heq, hne⟩ := rsplitOnceDot_split name s e hr
      have hnre : '.' ∉ e.reverse := by simpa using hne
      have hrev : name.reverse = e.reverse ++ '.' :: s.reverse := by
        rw [heq]; simp
      unfold stemSrc stemSpec
      rw [hr]
      rw [if_pos (List.elem_eq_true_of_mem hdot)]
      rw [hrev, dropWhile_append_dot e.reverse s.reverse hnre]
      simp
  · have hr : rsplitOnceDot name = none := by
      cases h' : rsplitOnceDot name with
      | none => rfl
      | some pr =>
        obtain ⟨s, e⟩ := pr
        obtain ⟨heq, -⟩ := rsplitOnceDot_split name s e h'
        exact absurd (heq ▸ List.mem_append_right s (List.mem_cons_self '.' e)) hdot
    unfold stemSrc stemSpec
    rw [hr]
    rw [if_neg (fun h => hdot (List.mem_of_elem_eq_true h))]

/-- C4: for every input with `bm25 ≥ 0`, the composite ranking function of
the retrieval engine returns exactly the weighted sum
`2.0·bm25_norm + 5.0·exact + 2.0·starts_with + 1.5·contains + 0.8·recency
+ 0.4·depth_penalty + type_bonus` with every signal defined as in the
specification. -/
theorem c4_compute_rank_matches_spec (bm25 : ℝ) (queryLower fileNameLower : List Char)
    (path : PathM) (modifiedTs : Int) (isDir : Bool) (nowTs : Int)
    (hbm : 0 ≤ bm25) :
    computeRank bm25 queryLower fileNameLower path modifiedTs isDir nowTs
      = specScore bm25 queryLower fileNameLower path modifiedTs isDir nowTs := by
  unfold computeRank specScore
  rw [stemSrc_eq_stemSpec]
  rw [max_comm (nowTs - modifiedTs) (1 : Int)]
  rw [max_comm (Real.log ((((max 1 (nowTs - modifiedTs) : Int) : ℝ) / 3600.0) / 24.0)) (0.0 : ℝ)]
  rw [max_comm (((path.components.length : ℝ)) - 3.0) (0.0 : ℝ)]
  ring

/-- C4 (witness): concrete evaluation of the equality at `bm25 = 1`. -/
theorem c4_witness :
    computeRank 1 ['a'] ['a'] ⟨["a"]⟩ 0 false 3600
      = specScore 1 ['a'] ['a'] ⟨["a"]⟩ 0 false 3600 :=
  c4_compute_rank_matches_spec 1 ['a'] ['a'] ⟨["a"]⟩ 0 false 3600 zero_le_one

/-! ## Retrieval pipeline (`src/index/reader.rs`, `SearchEngine::search`)

Tantivy is an external collaborator: the reader acquisition, the query
parser and the BM25 collector are oracles in `SearchEnv`.  `parse q`
reports whether `parse_query(q)` succeeds; `topDocs q k` is the candidate
list returned by `searcher.search(..., TopDocs::with_limit(k))` for the
query parsed from `q` (`none` models a search error).  Everything after
the collector — stored-field decoding, match-type assignment, composite
re-ranking, sorting and truncation — is embedded from the source. -/

inductive MatchType
  | fileName
  | content
  | metadata
  deriving DecidableEq

/-- The stored fields `search` loads back from a hit (any missing field
makes the closure skip the hit, modelled by `stored = none` or by the
oracle simply not producing it). -/
structure StoredDoc where
  fileName : String
  filePathStr : String
  fileSize : Nat
  modified : Int
  isDirVal : Nat
  deriving DecidableEq

structure SearchResult where
  fileName : String
  filePath : PathM
  matchType : MatchType
  fileSize : Nat
  modified : Int
  score : ℝ
  contentSnippet : Option String
  isDir : Bool

/-- One hit from the BM25 collector: its score and, when every stored
field could be decoded, the stored document. -/
structure Candidate where
  bm25 : ℝ
  stored : Option StoredDoc

structure SearchEnv where
  readerOk : Bool
  parse : String → Bool
  topDocs : String → Nat → Option (List Candidate)
  nowTs : Int

/-- The character class escaped by the parser fallback, exactly as the
source string literal spells it. -/
def escapeCharsStr : String := "+-&|!()\x7b\x7d[]^\"~*?:\\/"

/-- Embedding of the escape fallback of `SearchEngine::search` (lines
52–61): every character of the class is backslash-prefixed, all others
kept. -/
def escapeQuery (s : String) : String :=
  String.mk (s.data.flatMap (fun c => if c ∈ escapeCharsStr.data then ['\\', c] else [c]))

/-- The escape character class as the specification lists it, character by
character (spec-side definition for C7). -/
def escapeClassChars : List Char :=
  ['+', '-', '&', '|', '!', '(', ')', Char.ofNat 0x7b, Char.ofNat 0x7d,
   '[', ']', '^', '\"', '~', '*', '?', ':', '\\', '/']

/-- Model of `PathBuf::from(&str)` followed by `components()`: split on the
separator, dropping empty components. -/
def parsePath (s : String) : PathM :=
  ⟨(s.splitOn "/").filter (fun t => t != "")⟩

/-- The re-ranking `filter_map` of `SearchEngine::search` (lines 79–122):
decode the stored fields, assign the match type, compute the composite
score; `content_snippet` is always `None`. -/
noncomputable def rankCandidates (env : SearchEnv) (queryStr : String)
    (cands : List Candidate) : List SearchResult :=
  cands.filterMap (fun c =>
    match c.stored with
    | none => none
    | some d =>
      some { fileName := d.fileName
           , filePath := parsePath d.filePathStr
           , matchType :=
               if containsSub (lowerAscii d.fileName).data (lowerAscii queryStr).data
               then MatchType.fileName else MatchType.content
           , fileSize := d.fileSize
           , modified := d.modified
           , score := computeRank c.bm25 (lowerAscii queryStr).data
               (lowerAscii d.fileName).data (parsePath d.filePathStr) d.modified
               (d.isDirVal == 1) env.nowTs
           , contentSnippet := none
           , isDir := d.isDirVal == 1 })

/-- Stable insertion step for the descending sort-by-score; mirrors the
effect of `sort_by(|a, b| b.score.partial_cmp(&a.score).unwrap_or(Equal))`
(the claims use only that the sort permutes its input). -/
noncomputable def insertDesc (r : SearchResult) : List SearchResult → List SearchResult
  | [] => [r]
  | x :: t => if x.score < r.score then r :: x :: t else x :: insertDesc r t

noncomputable def sortByScore : List SearchResult → List SearchResult
  | [] => []
  | r :: t => insertDesc r (sortByScore t)

/-- The pipeline of `SearchEngine::search` after a query has been parsed
successfully from the string `qUsed`: candidate retrieval with
`k = min(limit·3, 600)`, re-ranking, sort, truncation. -/
noncomputable def searchWithQuery (env : SearchEnv) (queryStr qUsed : String)
    (limit : Nat) : List SearchResult :=
  match env.topDocs qUsed (min (limit * 3) 600) with
  | none => []
  | some cands => (sortByScore (rankCandidates env queryStr cands)).take limit

/-- Model of Rust `str::trim`: drop whitespace from both ends. -/
def trimChars (l : List Char) : List Char :=
  ((l.dropWhile Char.isWhitespace).reverse.dropWhile Char.isWhitespace).reverse

/-- Embedding of `SearchEngine::search` (`src/index/reader.rs`, lines
21–128): empty trimmed query returns empty; reader failure returns empty;
parse the raw query, on failure retry once with the escaped query, on a
second failure return empty; then run the pipeline. -/
noncomputable def SearchEngine.search (env : SearchEnv) (queryStr : String)
    (limit : Nat) : List SearchResult :=
  if trimChars queryStr.data = [] then []
  else if !env.readerOk then []
  else
    match (if env.parse queryStr then some queryStr
           else if env.parse (escapeQuery queryStr) then some (escapeQuery queryStr)
           else none) with
    | none => []
    | some q => searchWithQuery env queryStr q limit

/-! Length and membership facts for the sort. -/

theorem insertDesc_length (r : SearchResult) :
    ∀ l : List SearchResult, (insertDesc r l).length = l.length + 1 := by
  intro l
  induction l with
  | nil => rfl
  | cons x t ih =>
    unfold insertDesc
    by_cases h : x.score < r.score
    · rw [if_pos h]; rfl
    · rw [if_neg h]; simp [ih]

theorem sortByScore_length :
    ∀ l : List SearchResult, (sortByScore l).length = l.length := by
  intro l
  induction l with
  | nil => rfl
  | cons x t ih =>
    unfold sortByScore
    rw [insertDesc_length, ih]
    rfl

theorem mem_of_mem_insertDesc (r x : SearchResult) :
    ∀ l : List SearchResult, x ∈ insertDesc r l → x = r ∨ x ∈ l := by
  intro l
  induction l with
  | nil => intro h; simpa [insertDesc] using h
  | cons y t ih =>
    intro h
    unfold insertDesc at h
    by_cases hc : y.score < r.score
    · rw [if_pos hc] at h
      rcases List.mem_cons.mp h with h | h
      · exact Or.inl h
      · exact Or.inr h
    · rw [if_neg hc] at h
      rcases List.mem_cons.mp h with h | h
      · exact Or.inr (List.mem_cons.mpr (Or.inl h))
      · rcases ih h with h' | h'
        · exact Or.inl h'
        · exact Or.inr (List.mem_cons.mpr (Or.inr h'))

theorem mem_of_mem_sortByScore (x : SearchResult) :
    ∀ l : List SearchResult, x ∈ sortByScore l → x ∈ l := by
  intro l
  induction l with
  | nil => intro h; simpa [sortByScore] using h
  | cons y t ih =>
    intro h
    unfold sortByScore at h
    rcases mem_of_mem_insertDesc y x (sortByScore t) h with h' | h'
    · exact h' ▸ List.mem_cons_self y t
    · exact List.mem_cons_of_mem y (ih h')

/-- C6: for every query string and every limit, `SearchEngine::search`
returns at most `limit` results — through every branch, including the
empty-query, reader-failure, parse-fallback and `limit = 0` cases. -/
theorem c6_search_length_le (env : SearchEnv) (queryStr : String) (limit : Nat) :
    (SearchEngine.search env queryStr limit).length ≤ limit := by
  unfold SearchEngine.search
  split
  · simp
  · split
    · simp
    · split
      · simp
      · unfold searchWithQuery
        split
        · simp
        · rw [List.length_take]
          exact min_le_left _ _

/-- C7: when parsing the raw query fails, `search` retries exactly once
with the escaped query — in which every character of the class
`+ - & | ! ( ) { } [ ] ^ " ~ * ? : \ /` is backslash-prefixed and every
other character kept — and returns the empty list when the retry fails
too, instead of failing. -/
theorem c7_escape_fallback (env : SearchEnv) (queryStr : String) (limit : Nat)
    (h1 : ¬(trimChars queryStr.data = [])) (h2 : env.readerOk = true)
    (h3 : env.parse queryStr = false) :
    SearchEngine.search env queryStr limit
        = (if env.parse (escapeQuery queryStr) = true
           then searchWithQuery env queryStr (escapeQuery queryStr) limit
           else [])
    ∧ (escapeQuery queryStr).data
        = queryStr.data.flatMap
            (fun c => if c ∈ escapeClassChars then ['\\', c] else [c]) := by
  constructor
  · by_cases hp : env.parse (escapeQuery queryStr) = true
    · simp [SearchEngine.search, h1, h2, h3, hp]
    · simp [SearchEngine.search, h1, h2, h3, hp]
  · have hclass : escapeCharsStr.data = escapeClassChars := by decide
    show (String.mk (queryStr.data.flatMap
        (fun c => if c ∈ escapeCharsStr.data then ['\\', c] else [c]))).data = _
    simp only [hclass]

/-- A concrete retrieval environment whose parser rejects everything. -/
def searchEnvNoParse : SearchEnv :=
  { readerOk := true
  , parse := fun _ => false
  , topDocs := fun _ _ => none
  , nowTs := 0 }

/-- C7 (witness): concrete evaluation at the query `"("`, which the
environment's parser rejects twice, so `search` returns the empty list. -/
theorem c7_escape_fallback_witness :
    SearchEngine.search searchEnvNoParse "(" 3
        = (if searchEnvNoParse.parse (escapeQuery "(") = true
           then searchWithQuery searchEnvNoParse "(" (escapeQuery "(") 3
           else [])
    ∧ (escapeQuery "(").data
        = "(".data.flatMap
            (fun c => if c ∈ escapeClassChars then ['\\', c] else [c]) :=
  c7_escape_fallback searchEnvNoParse "(" 3 (by decide) rfl rfl

/-- C10: every `SearchResult` produced by `SearchEngine::search` has
`content_snippet = None` — the retrieval engine never fills the optional
snippet field. -/
theorem c10_no_content_snippet (env : SearchEnv) (queryStr : String) (limit : Nat) :
    (SearchEngine.search env queryStr limit).all
      (fun r => r.contentSnippet.isNone) = true := by
  rw [List.all_eq_true]
  intro r hr
  unfold SearchEngine.search at hr
  split at hr
  · simp at hr
  · split at hr
    · simp at hr
    · split at hr
      · simp at hr
      · unfold searchWithQuery at hr
        split at hr
        · simp at hr
        · have hr2 := List.mem_of_mem_take hr
          have hr3 := mem_of_mem_sortByScore r _ hr2
          obtain ⟨c, -, hc⟩ := List.mem_filterMap.mp hr3
          cases hs : c.stored with
          | none => rw [hs] at hc; cases hc
          | some d =>
            rw [hs] at hc
            have := Option.some.inj hc
            rw [← this]
            rfl

/-! ## Reconcile coordinator (`src/indexer/coordinator.rs`, `run_indexing`)

The tantivy writer is modelled as an operation log in transaction order:
`delete_term` removes every live document whose `file_path` matches, and a
successful `add_file` appends the constructed document.  A committed index
state is the log (or any prefix of it that ends at a commit point) applied
to the previously committed documents; claims below quantify over all
prefixes, so the batching of `maybe_commit` needs no separate model.  The
filesystem (`FileMetadata::from_path`, `read_content`) and the
success/failure of each writer call and of the final commit are oracles in
`FsEnv`, keyed by the rendered path string the coordinator itself uses as
identity.  Progress events other than the final report, and the pre-count
walk, do not bear on the claims and are not modelled. -/

inductive WriterOp
  | deleteTerm (path : String)
  | addDoc (d : Doc)
  deriving DecidableEq

def applyOp (docs : List Doc) : WriterOp → List Doc
  | WriterOp.deleteTerm s => docs.filter (fun d => d.filePath != s)
  | WriterOp.addDoc d => docs ++ [d]

def applyOps (docs : List Doc) (ops : List WriterOp) : List Doc :=
  ops.foldl applyOp docs

/-! Association-list model of the `HashMap<String, i64>` the coordinator
keeps (`existing`): insertion overwrites, lookup finds the binding,
erasure removes it. -/

def lookupKey (k : String) : List (String × Int) → Option Int
  | [] => none
  | (k', v) :: t => if k' = k then some v else lookupKey k t

def eraseKey (k : String) : List (String × Int) → List (String × Int)
  | [] => []
  | (k', v) :: t => if k' = k then eraseKey k t else (k', v) :: eraseKey k t

def insertKey (k : String) (v : Int) : List (String × Int) → List (String × Int)
  | [] => [(k, v)]
  | (k', v') :: t => if k' = k then (k, v) :: t else (k', v') :: insertKey k v t

/-- Embedding of `load_existing_index`: every stored document contributes
its `(file_path, modified)` pair (documents written by `add_file` always
carry both fields). -/
def seedExisting (docs : List Doc) : List (String × Int) :=
  docs.foldl (fun m d => insertKey d.filePath d.modified m) []

/-- Oracles for one reconcile run. -/
structure FsEnv where
  stat : String → Option FileMetadata
  content : String → Option String
  addOk : String → Bool
  commitOk : Bool
  commitMsg : String

structure RunState where
  existing : List (String × Int)
  ops : List WriterOp
  filesAdded : Nat
  filesUpdated : Nat
  needCommit : Bool
  deriving DecidableEq

/-- The fall-through add of the walk loop (`run_indexing`, lines 160–173):
read content for non-directories, then `add_file`; on a writer error the
path is skipped silently and `need_commit` is left untouched. -/
def processAdd (env : FsEnv) (st : RunState) (p : PathM) (meta : FileMetadata) : RunState :=
  if env.addOk p.render then
    { st with
      ops := st.ops ++ [WriterOp.addDoc (IndexWriter.addFileDoc p meta
        (if !meta.isDir then env.content p.render else none))]
    , needCommit := true }
  else st

/-- One iteration of the walk-and-diff loop (`run_indexing`, lines
119–193) for a produced path: stat failure removes the path from
`existing`; an unchanged mtime only removes it; a changed mtime emits a
delete-by-term, removes it, increments `files_updated` and falls through
to the add; an unknown path increments `files_added` and falls through to
the add. -/
def processPath (env : FsEnv) (st : RunState) (p : PathM) : RunState :=
  match env.stat p.render with
  | none => { st with existing := eraseKey p.render st.existing }
  | some meta =>
    match lookupKey p.render st.existing with
    | some indexedModified =>
      if indexedModified = meta.modified then
        { st with existing := eraseKey p.render st.existing }
      else
        processAdd env
          { st with
            ops := st.ops ++ [WriterOp.deleteTerm p.render]
          , existing := eraseKey p.render st.existing
          , filesUpdated := st.filesUpdated + 1 } p meta
    | none =>
      processAdd env { st with filesAdded := st.filesAdded + 1 } p meta

structure IndexStats where
  added : Nat
  updated : Nat
  deleted : Nat
  deriving DecidableEq

/-- Embedding of `IndexStats::has_changes` (`src/types.rs`, lines 46–50). -/
def IndexStats.hasChanges (s : IndexStats) : Bool :=
  decide (0 < s.added) || decide (0 < s.updated) || decide (0 < s.deleted)

inductive IndexStatus
  | counting
  | starting
  | indexing
  | committing
  | ready (stats : Option IndexStats)
  | failed (msg : String)
  deriving DecidableEq

structure IndexProgress where
  filesIndexed : Nat
  estimatedTotal : Nat
  status : IndexStatus
  deriving DecidableEq

/-- Outcome of one reconcile run: the full writer-operation log, the
counters, and the final progress report (`failed` when the final commit
errored, `ready` otherwise). -/
structure RunResult where
  ops : List WriterOp
  filesAdded : Nat
  filesUpdated : Nat
  deleted : Nat
  needCommit : Bool
  final : IndexProgress
  deriving DecidableEq

/-- The end-of-run phase of `run_indexing` (lines 195–242): delete every
path still in `existing`, compute `deleted` and
`total_indexed = existing_count + files_added − deleted`, commit when
needed (emitting `Error` and terminating on a commit failure), and emit
the final report with `Ready(Some(stats))` exactly when the stats record
any change. -/
def finishRun (env : FsEnv) (existingCount : Nat) (st : RunState) : RunResult :=
  if (st.needCommit || !st.existing.isEmpty) && !env.commitOk then
    { ops := st.ops ++ st.existing.map (fun kv => WriterOp.deleteTerm kv.1)
    , filesAdded := st.filesAdded
    , filesUpdated := st.filesUpdated
    , deleted := st.existing.length
    , needCommit := st.needCommit || !st.existing.isEmpty
    , final := { filesIndexed := existingCount + st.filesAdded - st.existing.length
               , estimatedTotal := existingCount + st.filesAdded - st.existing.length
               , status := IndexStatus.failed env.commitMsg } }
  else
    { ops := st.ops ++ st.existing.map (fun kv => WriterOp.deleteTerm kv.1)
    , filesAdded := st.filesAdded
    , filesUpdated := st.filesUpdated
    , deleted := st.existing.length
    , needCommit := st.needCommit || !st.existing.isEmpty
    , final := { filesIndexed := existingCount + st.filesAdded - st.existing.length
               , estimatedTotal := existingCount + st.filesAdded - st.existing.length
               , status := IndexStatus.ready
                   (if (IndexStats.mk st.filesAdded st.filesUpdated st.existing.length).hasChanges
                    then some (IndexStats.mk st.filesAdded st.filesUpdated st.existing.length)
                    else none) } }

/-- One reconcile run (`run_indexing`): seed `existing` from the committed
documents, fold the walk-and-diff step over the walker stream, then run
the end-of-run phase. -/
def runIndexing (env : FsEnv) (initDocs : List Doc) (walk : List PathM) : RunResult :=
  finishRun env (seedExisting initDocs).length
    (walk.foldl (processPath env)
      { existing := seedExisting initDocs
      , ops := []
      , filesAdded := 0
      , filesUpdated := 0
      , needCommit := false })

/-- C8: a walked path that is present in `existing` with a modified
timestamp equal to its on-disk mtime causes zero writer operations — the
step only removes the path from the `existing` map, leaving the operation
log, the counters and `need_commit` untouched. -/
theorem c8_unchanged_path_no_ops (env : FsEnv) (st : RunState) (p : PathM)
    (meta : FileMetadata)
    (hstat : env.stat p.render = some meta)
    (hidx : lookupKey p.render st.existing = some meta.modified) :
    processPath env st p = { st with existing := eraseKey p.render st.existing } := by
  unfold processPath
  rw [hstat, hidx]
  simp

/-- A concrete environment for the C8 witness. -/
def envUnchanged : FsEnv :=
  { stat := fun s => if s = "a/f.txt" then some metaFile else none
  , content := fun _ => none
  , addOk := fun _ => true
  , commitOk := true
  , commitMsg := "" }

/-- A concrete walk state for the C8 witness: `a/f.txt` indexed with the
same mtime the stat reports. -/
def stUnchanged : RunState :=
  { existing := [("a/f.txt", 100), ("b/g.txt", 7)]
  , ops := []
  , filesAdded := 0
  , filesUpdated := 0
  , needCommit := false }

/-- C8 (witness): concrete evaluation of the unchanged-path step. -/
theorem c8_unchanged_path_no_ops_witness :
    processPath envUnchanged stUnchanged ⟨["a", "f.txt"]⟩
      = { stUnchanged with existing := eraseKey (PathM.render ⟨["a", "f.txt"]⟩) stUnchanged.existing } :=
  c8_unchanged_path_no_ops envUnchanged stUnchanged ⟨["a", "f.txt"]⟩ metaFile (by decide) (by decide)

/-- C3 (counterexample): a path indexed with mtime 1 whose on-disk mtime
is 2 and whose re-add fails leaves `need_commit` unset for the whole run,
even though the delete-by-term was emitted and `files_updated`
incremented — refuting "marks need_commit … regardless of whether the
subsequent add succeeds". -/
theorem c3_need_commit_counterexample :
    (runIndexing
        { stat := fun _ => some { size := 3, modified := 2, created := 0
                                , permissions := "rw-r--r--", isDir := false }
        , content := fun _ => none
        , addOk := fun _ => false
        , commitOk := true
        , commitMsg := "" }
        [{ fileName := "f.rs", filePath := "f.rs", extension := "rs", fileSize := 3
         , modified := 1, created := 0, permissions := "rw-r--r--", isDir := 0
         , content := none }]
        [⟨["f.rs"]⟩]).ops = [WriterOp.deleteTerm "f.rs"]
    ∧ (runIndexing
        { stat := fun _ => some { size := 3, modified := 2, created := 0
                                , permissions := "rw-r--r--", isDir := false }
        , content := fun _ => none
        , addOk := fun _ => false
        , commitOk := true
        , commitMsg := "" }
        [{ fileName := "f.rs", filePath := "f.rs", extension := "rs", fileSize := 3
         , modified := 1, created := 0, permissions := "rw-r--r--", isDir := 0
         , content := none }]
        [⟨["f.rs"]⟩]).filesUpdated = 1
    ∧ (runIndexing
        { stat := fun _ => some { size := 3, modified := 2, created := 0
                                , permissions := "rw-r--r--", isDir := false }
        , content := fun _ => none
        , addOk := fun _ => false
        , commitOk := true
        , commitMsg := "" }
        [{ fileName := "f.rs", filePath := "f.rs", extension := "rs", fileSize := 3
         , modified := 1, created := 0, permissions := "rw-r--r--", isDir := 0
         , content := none }]
        [⟨["f.rs"]⟩]).needCommit = false := by
  refine ⟨?_, ?_, ?_⟩ <;> decide

/-- C3 (amended): for a produced path present in `existing` with a
modified timestamp different from the on-disk one, the coordinator emits
the delete-by-term as the next writer operation, removes the path from
`existing` and increments `files_updated` — all regardless of whether the
subsequent add succeeds — and leaves `files_added` unchanged; but
`need_commit` is marked only when the add succeeds (`need_commit` after
the step equals `need_commit` before it OR-ed with the add's success). -/
theorem c3_update_branch (env : FsEnv) (st : RunState) (p : PathM)
    (meta : FileMetadata) (m : Int)
    (hstat : env.stat p.render = some meta)
    (hidx : lookupKey p.render st.existing = some m)
    (hne : m ≠ meta.modified) :
    (processPath env st p).ops
        = st.ops ++ [WriterOp.deleteTerm p.render]
          ++ (if env.addOk p.render then
                [WriterOp.addDoc (IndexWriter.addFileDoc p meta
                  (if !meta.isDir then env.content p.render else none))]
              else [])
    ∧ (processPath env st p).existing = eraseKey p.render st.existing
    ∧ (processPath env st p).filesUpdated = st.filesUpdated + 1
    ∧ (processPath env st p).filesAdded = st.filesAdded
    ∧ (processPath env st p).needCommit = (st.needCommit || env.addOk p.render) := by
  unfold processPath
  rw [hstat, hidx]
  dsimp only
  rw [if_neg hne]
  unfold processAdd
  by_cases ha : env.addOk p.render = true
  · rw [if_pos ha, if_pos ha]
    refine ⟨by simp, rfl, rfl, rfl, by simp [ha]⟩
  · have ha' : env.addOk p.render = false := by
      revert ha; cases env.addOk p.render <;> simp
    rw [if_neg ha, if_neg ha]
    refine ⟨by simp, rfl, rfl, rfl, by simp [ha']⟩

/-- C3 (witness for the amended theorem): concrete evaluation of the
update branch with a succeeding add. -/
theorem c3_update_branch_witness :
    (processPath envUnchanged
        { existing := [("a/f.txt", 55)], ops := [], filesAdded := 0
        , filesUpdated := 0, needCommit := false } ⟨["a", "f.txt"]⟩).filesUpdated = 1
    ∧ (processPath envUnchanged
        { existing := [("a/f.txt", 55)], ops := [], filesAdded := 0
        , filesUpdated := 0, needCommit := false } ⟨["a", "f.txt"]⟩).needCommit
          = (false || envUnchanged.addOk (PathM.render ⟨["a", "f.txt"]⟩)) := by
  have h := c3_update_branch envUnchanged
      { existing := [("a/f.txt", 55)], ops := [], filesAdded := 0
      , filesUpdated := 0, needCommit := false } ⟨["a", "f.txt"]⟩ metaFile 55
      (by decide) (by decide) (by decide)
  exact ⟨h.2.2.1, h.2.2.2.2⟩

/-! The `existing` map only ever shrinks during the walk, which is what
makes the final subtraction safe (C9). -/

theorem eraseKey_length_le (k : String) :
    ∀ l : List (String × Int), (eraseKey k l).length ≤ l.length := by
  intro l
  induction l with
  | nil => exact Nat.le_refl 0
  | cons kv t ih =>
    obtain ⟨k', v⟩ := kv
    unfold eraseKey
    by_cases h : k' = k
    · rw [if_pos h]
      exact Nat.le_succ_of_le ih
    · rw [if_neg h]
      simpa using ih

theorem processAdd_existing (env : FsEnv) (st : RunState) (p : PathM)
    (meta : FileMetadata) : (processAdd env st p meta).existing = st.existing := by
  unfold processAdd
  split <;> rfl

theorem processPath_existing_length_le (env : FsEnv) (st : RunState) (p : PathM) :
    ((processPath env st p).existing).length ≤ st.existing.length := by
  unfold processPath
  cases env.stat p.render with
  | none => exact eraseKey_length_le _ _
  | some meta =>
    dsimp only
    cases lookupKey p.render st.existing with
    | none =>
      dsimp only
      rw [processAdd_existing]
    | some m =>
      dsimp only
      by_cases h : m = meta.modified
      · rw [if_pos h]
        exact eraseKey_length_le _ _
      · rw [if_neg h, processAdd_existing]
        exact eraseKey_length_le _ _

theorem walk_existing_length_le (env : FsEnv) :
    ∀ (walk : List PathM) (st : RunState),
      ((walk.foldl (processPath env) st).existing).length ≤ st.existing.length := by
  intro walk
  induction walk with
  | nil => intro st; exact Nat.le_refl _
  | cons p rest ih =>
    intro st
    calc ((rest.foldl (processPath env) (processPath env st p)).existing).length
        ≤ ((processPath env st p).existing).length := ih (processPath env st p)
      _ ≤ st.existing.length := processPath_existing_length_le env st p

/-- C9: when the final commit is not needed or succeeds, the final
progress report of the reconcile run carries
`files_indexed = prior_count + files_added − deleted` (stated
additively, which also shows the `u64` subtraction cannot underflow),
`estimated_total` equal to that same value, and status
`Ready(Some(stats))` exactly when any of added/updated/deleted is
non-zero; moreover `deleted` never exceeds the prior count. -/
theorem c9_final_report (env : FsEnv) (initDocs : List Doc) (walk : List PathM)
    (h : (runIndexing env initDocs walk).needCommit = false ∨ env.commitOk = true) :
    (runIndexing env initDocs walk).final.filesIndexed
        + (runIndexing env initDocs walk).deleted
      = (seedExisting initDocs).length + (runIndexing env initDocs walk).filesAdded
    ∧ (runIndexing env initDocs walk).deleted ≤ (seedExisting initDocs).length
    ∧ (runIndexing env initDocs walk).final.estimatedTotal
        = (runIndexing env initDocs walk).final.filesIndexed
    ∧ (runIndexing env initDocs walk).final.status
        = IndexStatus.ready
            (if (IndexStats.mk (runIndexing env initDocs walk).filesAdded
                  (runIndexing env initDocs walk).filesUpdated
                  (runIndexing env initDocs walk).deleted).hasChanges
             then some (IndexStats.mk (runIndexing env initDocs walk).filesAdded
                  (runIndexing env initDocs walk).filesUpdated
                  (runIndexing env initDocs walk).deleted)
             else none) := by
  have hdel : ((walk.foldl (processPath env)
      { existing := seedExisting initDocs, ops := [], filesAdded := 0
      , filesUpdated := 0, needCommit := false }).existing).length
      ≤ (seedExisting initDocs).length :=
    walk_existing_length_le env walk _
  unfold runIndexing finishRun at h ⊢
  set stw := walk.foldl (processPath env)
      { existing := seedExisting initDocs, ops := [], filesAdded := 0
      , filesUpdated := 0, needCommit := false } with hstw
  by_cases hc : ((stw.needCommit || !stw.existing.isEmpty) && !env.commitOk) = true
  · have hcommit : env.commitOk = false := by
      revert hc; cases env.commitOk <;> simp
    rw [if_pos hc] at h
    rcases h with h | h
    · dsimp only at h
      rw [hcommit] at hc
      simp only [Bool.not_false, Bool.and_true] at hc
      rw [h] at hc
      cases hc
    · rw [h] at hcommit
      cases hcommit
  · rw [if_neg hc] at h ⊢
    dsimp only
    exact ⟨by omega, hdel, rfl, rfl⟩

/-- A trivial environment for the C9 witness. -/
def envEmpty : FsEnv :=
  { stat := fun _ => none
  , content := fun _ => none
  , addOk := fun _ => true
  , commitOk := true
  , commitMsg := "" }

/-- C9 (witness): concrete evaluation of the final report on an empty
run. -/
theorem c9_final_report_witness :
    (runIndexing envEmpty [] []).final.filesIndexed
        + (runIndexing envEmpty [] []).deleted
      = (seedExisting []).length + (runIndexing envEmpty [] []).filesAdded
    ∧ (runIndexing envEmpty [] []).deleted ≤ (seedExisting []).length
    ∧ (runIndexing envEmpty [] []).final.estimatedTotal
        = (runIndexing envEmpty [] []).final.filesIndexed
    ∧ (runIndexing envEmpty [] []).final.status
        = IndexStatus.ready
            (if (IndexStats.mk (runIndexing envEmpty [] []).filesAdded
                  (runIndexing envEmpty [] []).filesUpdated
                  (runIndexing envEmpty [] []).deleted).hasChanges
             then some (IndexStats.mk (runIndexing envEmpty [] []).filesAdded
                  (runIndexing envEmpty [] []).filesUpdated
                  (runIndexing envEmpty [] []).deleted)
             else none) :=
  c9_final_report envEmpty [] [] (Or.inr rfl)

/-! ## The `file_path` uniqueness invariant (C1)

A committed index state is `applyOps initDocs pre` for a prefix `pre` of
the run's operation log (the final commit applies the whole log; the
batched `maybe_commit` points are intermediate prefixes).  The claims
below therefore quantify over every prefix `take n`. -/

def docPaths (docs : List Doc) : List String := docs.map Doc.filePath

/-- No two live documents share a `file_path` (§3, invariant 1). -/
def UniquePaths (docs : List Doc) : Prop :=
  docs.Pairwise (fun a b => a.filePath ≠ b.filePath)

instance uniquePathsDecidable (docs : List Doc) : Decidable (UniquePaths docs) := by
  unfold UniquePaths
  infer_instance

theorem applyOps_append (I : List Doc) (l₁ l₂ : List WriterOp) :
    applyOps I (l₁ ++ l₂) = applyOps (applyOps I l₁) l₂ :=
  List.foldl_append applyOp I l₁ l₂

theorem applyOps_nil_eq (S : List Doc) : applyOps S [] = S := rfl

theorem applyOps_cons_eq (S : List Doc) (op : WriterOp) (ops : List WriterOp) :
    applyOps S (op :: ops) = applyOps (applyOp S op) ops := rfl

theorem applyOps_singleton (S : List Doc) (op : WriterOp) :
    applyOps S [op] = applyOp S op := rfl

theorem applyOp_delete (S : List Doc) (s : String) :
    applyOp S (WriterOp.deleteTerm s) = S.filter (fun d => d.filePath != s) := rfl

theorem applyOp_add (S : List Doc) (d : Doc) :
    applyOp S (WriterOp.addDoc d) = S ++ [d] := rfl

theorem uniquePaths_filter (docs : List Doc) (q : Doc → Bool)
    (h : UniquePaths docs) : UniquePaths (docs.filter q) :=
  h.sublist (List.filter_sublist docs)

theorem uniquePaths_append_single (docs : List Doc) (d : Doc)
    (h : UniquePaths docs) (hd : d.filePath ∉ docPaths docs) :
    UniquePaths (docs ++ [d]) := by
  rw [UniquePaths, List.pairwise_append]
  refine ⟨h, List.pairwise_singleton _ _, ?_⟩
  intro a ha b hb
  have hb' : b = d := by simpa using hb
  subst hb'
  intro hab
  exact hd (hab ▸ List.mem_map_of_mem Doc.filePath ha)

theorem docPaths_applyOp_subset (docs : List Doc) (op : WriterOp) (q : String)
    (hq : q ∈ docPaths (applyOp docs op)) :
    q ∈ docPaths docs ∨ (∃ d : Doc, op = WriterOp.addDoc d ∧ q = d.filePath) := by
  cases op with
  | deleteTerm s =>
    left
    obtain ⟨d, hd, rfl⟩ := List.mem_map.mp hq
    exact List.mem_map_of_mem _ (List.mem_of_mem_filter hd)
  | addDoc d =>
    obtain ⟨d', hd', rfl⟩ := List.mem_map.mp hq
    rcases List.mem_append.mp hd' with h | h
    · exact Or.inl (List.mem_map_of_mem _ h)
    · have hdd : d' = d := by simpa using h
      subst hdd
      exact Or.inr ⟨d', rfl, rfl⟩

theorem mem_docPaths_filter_ne (docs : List Doc) (s q : String)
    (hq : q ∈ docPaths (docs.filter (fun d => d.filePath != s))) : q ≠ s := by
  obtain ⟨d, hd, rfl⟩ := List.mem_map.mp hq
  have := (List.mem_filter.mp hd).2
  simpa using this

theorem lookupKey_cons (k k0 : String) (v : Int) (t : List (String × Int)) :
    lookupKey k ((k0, v) :: t) = if k0 = k then some v else lookupKey k t := rfl

theorem eraseKey_cons (k' k0 : String) (v : Int) (t : List (String × Int)) :
    eraseKey k' ((k0, v) :: t)
      = if k0 = k' then eraseKey k' t else (k0, v) :: eraseKey k' t := rfl

theorem insertKey_cons (k' k0 : String) (v v0 : Int) (t : List (String × Int)) :
    insertKey k' v ((k0, v0) :: t)
      = if k0 = k' then (k', v) :: t else (k0, v0) :: insertKey k' v t := rfl

theorem lookupKey_eraseKey (k k' : String) :
    ∀ l : List (String × Int),
      lookupKey k (eraseKey k' l) = if k = k' then none else lookupKey k l := by
  intro l
  induction l with
  | nil => by_cases h : k = k' <;> simp [eraseKey, lookupKey, h]
  | cons kv t ih =>
    obtain ⟨k0, v⟩ := kv
    rw [eraseKey_cons]
    by_cases h0 : k0 = k'
    · rw [if_pos h0, ih]
      by_cases h : k = k'
      · rw [if_pos h, if_pos h]
      · have hk0 : k0 ≠ k := fun he => h (by rw [← he, h0])
        rw [if_neg h, if_neg h, lookupKey_cons, if_neg hk0]
    · rw [if_neg h0, lookupKey_cons]
      by_cases hk0 : k0 = k
      · have hkk' : k ≠ k' := fun he => h0 (by rw [hk0, he])
        rw [if_pos hk0, if_neg hkk', lookupKey_cons, if_pos hk0]
      · rw [if_neg hk0, ih]
        by_cases h : k = k'
        · rw [if_pos h, if_pos h]
        · rw [if_neg h, if_neg h, lookupKey_cons, if_neg hk0]

theorem lookupKey_insertKey (k k' : String) (v : Int) :
    ∀ l : List (String × Int),
      lookupKey k (insertKey k' v l) = if k' = k then some v else lookupKey k l := by
  intro l
  induction l with
  | nil => simp [insertKey, lookupKey]
  | cons kv t ih =>
    obtain ⟨k0, v0⟩ := kv
    rw [insertKey_cons]
    by_cases h0 : k0 = k'
    · rw [if_pos h0, lookupKey_cons, lookupKey_cons]
      by_cases h : k' = k
      · rw [if_pos h, if_pos h]
      · have hk0 : k0 ≠ k := fun he => h (by rw [← h0, he])
        rw [if_neg h, if_neg h, if_neg hk0]
    · rw [if_neg h0, lookupKey_cons, lookupKey_cons]
      by_cases hk0 : k0 = k
      · have hkk' : k' ≠ k := fun he => h0 (by rw [hk0, he])
        rw [if_pos hk0, if_pos hk0, if_neg hkk']
      · rw [if_neg hk0, if_neg hk0, ih]

theorem seed_lookup_isSome_of_mem (k : String) :
    ∀ (docs : List Doc) (acc : List (String × Int)),
      (k ∈ docPaths docs ∨ (lookupKey k acc).isSome = true) →
      (lookupKey k (docs.foldl (fun m d => insertKey d.filePath d.modified m) acc)).isSome
        = true := by
  intro docs
  induction docs with
  | nil =>
    intro acc h
    rcases h with h | h
    · simp [docPaths] at h
    · simpa using h
  | cons d t ih =>
    intro acc h
    rw [List.foldl_cons]
    apply ih
    rcases h with h | h
    · rcases List.mem_cons.mp (show k ∈ d.filePath :: docPaths t from h) with he | ht
      · right
        rw [lookupKey_insertKey, if_pos he.symm]
        rfl
      · left
        exact ht
    · right
      rw [lookupKey_insertKey]
      by_cases he : d.filePath = k
      · rw [if_pos he]
        rfl
      · rw [if_neg he]
        exact h

theorem seed_lookup_none_not_mem (k : String) (docs : List Doc)
    (h : lookupKey k (seedExisting docs) = none) : k ∉ docPaths docs := by
  intro hm
  have := seed_lookup_isSome_of_mem k docs [] (Or.inl hm)
  rw [show seedExisting docs = docs.foldl (fun m d => insertKey d.filePath d.modified m) []
    from rfl] at h
  rw [h] at this
  cases this

theorem takeClosure_append (I : List Doc) (ops more : List WriterOp)
    (hOps : ∀ n, UniquePaths (applyOps I (ops.take n)))
    (hMore : ∀ m, UniquePaths (applyOps (applyOps I ops) (more.take m))) :
    ∀ n, UniquePaths (applyOps I ((ops ++ more).take n)) := by
  intro n
  rw [List.take_append_eq_append_take, applyOps_append]
  by_cases h : n ≤ ops.length
  · have h0 : n - ops.length = 0 := by omega
    rw [h0, List.take_zero]
    exact hOps n
  · have hlen : ops.length ≤ n := by omega
    rw [List.take_of_length_le hlen]
    exact hMore (n - ops.length)

theorem moreClosure_delete (S : List Doc) (s : String) (h : UniquePaths S) :
    ∀ m, UniquePaths (applyOps S ([WriterOp.deleteTerm s].take m)) := by
  intro m
  cases m with
  | zero => simpa using h
  | succ m' =>
    rw [List.take_succ_cons, List.take_nil, applyOps_singleton, applyOp_delete]
    exact uniquePaths_filter S _ h

theorem moreClosure_delete_add (S : List Doc) (s : String) (d : Doc)
    (h : UniquePaths S) (hd : d.filePath = s) :
    ∀ m, UniquePaths (applyOps S ([WriterOp.deleteTerm s, WriterOp.addDoc d].take m)) := by
  intro m
  match m with
  | 0 => simpa using h
  | 1 =>
    rw [List.take_succ_cons, List.take_zero, applyOps_singleton, applyOp_delete]
    exact uniquePaths_filter S _ h
  | (n + 2) =>
    rw [List.take_succ_cons, List.take_succ_cons, List.take_nil,
      applyOps_cons_eq, applyOps_singleton, applyOp_delete, applyOp_add]
    apply uniquePaths_append_single
    · exact uniquePaths_filter S _ h
    · intro hmem
      exact (mem_docPaths_filter_ne S s _ hmem) hd

theorem moreClosure_add (S : List Doc) (d : Doc)
    (h : UniquePaths S) (hd : d.filePath ∉ docPaths S) :
    ∀ m, UniquePaths (applyOps S ([WriterOp.addDoc d].take m)) := by
  intro m
  cases m with
  | zero => simpa using h
  | succ m' =>
    rw [List.take_succ_cons, List.take_nil, applyOps_singleton, applyOp_add]
    exact uniquePaths_append_single S d h hd

theorem applyOps_all_deletes (ops : List WriterOp)
    (hall : ∀ op ∈ ops, ∃ s, op = WriterOp.deleteTerm s) :
    ∀ S, UniquePaths S → UniquePaths (applyOps S ops) := by
  induction ops with
  | nil => intro S h; exact h
  | cons op t ih =>
    intro S h
    obtain ⟨s, rfl⟩ := hall op (List.mem_cons_self op t)
    rw [applyOps_cons_eq, applyOp_delete]
    exact ih (fun o ho => hall o (List.mem_cons_of_mem _ ho)) _ (uniquePaths_filter S _ h)

/-- The invariant carried by one walk-and-diff step: the `existing` map is
the seed restricted to unprocessed keys, every prefix of the operation log
keeps the live paths unique, and every live path comes from the seed
index or from a processed walk element. -/
theorem processPath_inv (env : FsEnv) (I : List Doc) (existing0 : List (String × Int))
    (st : RunState) (processed : List String) (p : PathM)
    (hmem : p.render ∉ processed)
    (hEx : ∀ k, lookupKey k st.existing
        = if k ∈ processed then none else lookupKey k existing0)
    (hOps : ∀ n, UniquePaths (applyOps I (st.ops.take n)))
    (hSub : ∀ q, q ∈ docPaths (applyOps I st.ops) → q ∈ docPaths I ∨ q ∈ processed)
    (hSeedN : ∀ k, lookupKey k existing0 = none → k ∉ docPaths I) :
    (∀ k, lookupKey k (processPath env st p).existing
        = if k ∈ processed ++ [p.render] then none else lookupKey k existing0)
    ∧ (∀ n, UniquePaths (applyOps I ((processPath env st p).ops.take n)))
    ∧ (∀ q, q ∈ docPaths (applyOps I (processPath env st p).ops)
        → q ∈ docPaths I ∨ q ∈ processed ++ [p.render]) := by
  have hFull : UniquePaths (applyOps I st.ops) := by
    have h := hOps st.ops.length
    rwa [List.take_length] at h
  have hExErase : ∀ k, lookupKey k (eraseKey p.render st.existing)
      = if k ∈ processed ++ [p.render] then none else lookupKey k existing0 := by
    intro k
    rw [lookupKey_eraseKey]
    by_cases hk : k = p.render
    · rw [if_pos hk, if_pos (by simp [hk])]
    · rw [if_neg hk, hEx k]
      by_cases hp : k ∈ processed
      · rw [if_pos hp, if_pos (by simp [hp])]
      · rw [if_neg hp, if_neg (by simp [hp, hk])]
  have hSub' : ∀ q, q ∈ docPaths (applyOps I st.ops)
      → q ∈ docPaths I ∨ q ∈ processed ++ [p.render] :=
    fun q hq => (hSub q hq).imp id (fun h => by simp [h])
  unfold processPath
  cases hstat : env.stat p.render with
  | none =>
    dsimp only
    exact ⟨hExErase, hOps, hSub'⟩
  | some meta =>
    dsimp only
    cases hlook : lookupKey p.render st.existing with
    | some m =>
      dsimp only
      by_cases hmod : m = meta.modified
      · rw [if_pos hmod]
        exact ⟨hExErase, hOps, hSub'⟩
      · rw [if_neg hmod]
        unfold processAdd
        by_cases haddOk : env.addOk p.render = true
        · rw [if_pos haddOk]
          dsimp only
          refine ⟨hExErase, ?_, ?_⟩
          · rw [List.append_assoc]
            exact takeClosure_append I st.ops _ hOps
              (moreClosure_delete_add _ _ _ hFull rfl)
          · intro q hq
            rw [applyOps_append, applyOps_singleton] at hq
            rcases docPaths_applyOp_subset _ _ q hq with h | ⟨d', heq, hqd⟩
            · rw [applyOps_append, applyOps_singleton] at h
              rcases docPaths_applyOp_subset _ _ q h with h2 | ⟨d', hdel, -⟩
              · exact hSub' q h2
              · cases hdel
            · have hdd : IndexWriter.addFileDoc p meta
                  (if !meta.isDir then env.content p.render else none) = d' :=
                WriterOp.addDoc.inj heq
              right
              rw [hqd, ← hdd]
              simp [IndexWriter.addFileDoc]
        · rw [if_neg haddOk]
          dsimp only
          refine ⟨hExErase, ?_, ?_⟩
          · exact takeClosure_append I st.ops _ hOps (moreClosure_delete _ _ hFull)
          · intro q hq
            rw [applyOps_append, applyOps_singleton] at hq
            rcases docPaths_applyOp_subset _ _ q hq with h | ⟨d', hdel, -⟩
            · exact hSub' q h
            · cases hdel
    | none =>
      dsimp only
      unfold processAdd
      have hnotI : p.render ∉ docPaths I := by
        have h1 := hEx p.render
        rw [if_neg hmem, hlook] at h1
        exact hSeedN p.render h1.symm
      have hnotState : p.render ∉ docPaths (applyOps I st.ops) := by
        intro hq
        rcases hSub _ hq with h | h
        · exact hnotI h
        · exact hmem h
      have hExSame : ∀ k, lookupKey k st.existing
          = if k ∈ processed ++ [p.render] then none else lookupKey k existing0 := by
        intro k
        by_cases hk : k = p.render
        · rw [if_pos (by simp [hk]), hk, hlook]
        · rw [hEx k]
          by_cases hp : k ∈ processed
          · rw [if_pos hp, if_pos (by simp [hp])]
          · rw [if_neg hp, if_neg (by simp [hp, hk])]
      by_cases haddOk : env.addOk p.render = true
      · rw [if_pos haddOk]
        dsimp only
        refine ⟨hExSame, ?_, ?_⟩
        · exact takeClosure_append I st.ops _ hOps
            (moreClosure_add _ _ hFull hnotState)
        · intro q hq
          rw [applyOps_append, applyOps_singleton] at hq
          rcases docPaths_applyOp_subset _ _ q hq with h | ⟨d', heq, hqd⟩
          · exact hSub' q h
          · have hdd : IndexWriter.addFileDoc p meta
                (if !meta.isDir then env.content p.render else none) = d' :=
              WriterOp.addDoc.inj heq
            right
            rw [hqd, ← hdd]
            simp [IndexWriter.addFileDoc]
      · rw [if_neg haddOk]
        dsimp only
        exact ⟨hExSame, hOps, hSub'⟩

/-- Folding the walk-and-diff step over a duplicate-free walk preserves
prefix-wise uniqueness of the live paths. -/
theorem walk_fold_unique (env : FsEnv) (I : List Doc) (existing0 : List (String × Int))
    (hSeedN : ∀ k, lookupKey k existing0 = none → k ∉ docPaths I) :
    ∀ (walk : List PathM) (st : RunState) (processed : List String),
      (processed ++ walk.map PathM.render).Nodup →
      (∀ k, lookupKey k st.existing
          = if k ∈ processed then none else lookupKey k existing0) →
      (∀ n, UniquePaths (applyOps I (st.ops.take n))) →
      (∀ q, q ∈ docPaths (applyOps I st.ops) → q ∈ docPaths I ∨ q ∈ processed) →
      ∀ n, UniquePaths (applyOps I ((walk.foldl (processPath env) st).ops.take n)) := by
  intro walk
  induction walk with
  | nil =>
    intro st processed _ _ hOps _ n
    exact hOps n
  | cons p rest ih =>
    intro st processed hNodup hEx hOps hSub n
    rw [List.foldl_cons]
    have hNodup1 : (processed ++ p.render :: rest.map PathM.render).Nodup := by
      rw [List.map_cons] at hNodup
      exact hNodup
    have hmem : p.render ∉ processed := by
      intro hp
      exact (List.disjoint_of_nodup_append hNodup1) hp (List.mem_cons_self _ _)
    have hNodup' : ((processed ++ [p.render]) ++ rest.map PathM.render).Nodup := by
      have hre : processed ++ p.render :: rest.map PathM.render
          = (processed ++ [p.render]) ++ rest.map PathM.render := by simp
      rw [← hre]
      exact hNodup1
    obtain ⟨hEx', hOps', hSub'⟩ :=
      processPath_inv env I existing0 st processed p hmem hEx hOps hSub hSeedN
    exact ih (processPath env st p) (processed ++ [p.render]) hNodup' hEx' hOps' hSub' n

/-- C1 (amended): starting from a committed index whose live documents
have pairwise distinct `file_path` values, a reconcile run over a walk
that delivers pairwise distinct paths keeps `file_path` unique in every
committed state (every prefix of the writer-operation log, hence the
final commit and every intermediate `maybe_commit` point).  The
duplicate-delivery guarantee of the original claim is false — see the
counterexample —, so uniqueness holds under the walker's actual behaviour
of enumerating each path at most once per walk. -/
theorem c1_unique_paths (env : FsEnv) (initDocs : List Doc) (walk : List PathM)
    (hinit : UniquePaths initDocs)
    (hwalk : (walk.map PathM.render).Nodup) (n : Nat) :
    UniquePaths (applyOps initDocs ((runIndexing env initDocs walk).ops.take n)) := by
  have hSeedN : ∀ k, lookupKey k (seedExisting initDocs) = none → k ∉ docPaths initDocs :=
    fun k h => seed_lookup_none_not_mem k initDocs h
  have hwf := walk_fold_unique env initDocs (seedExisting initDocs) hSeedN walk
    { existing := seedExisting initDocs, ops := [], filesAdded := 0
    , filesUpdated := 0, needCommit := false } []
    (by simpa using hwalk)
    (fun k => by simp)
    (fun m => by
      rw [List.take_nil, applyOps_nil_eq]
      exact hinit)
    (fun q hq => Or.inl (by rwa [applyOps_nil_eq] at hq))
  have hFullW : UniquePaths (applyOps initDocs
      (walk.foldl (processPath env)
        { existing := seedExisting initDocs, ops := [], filesAdded := 0
        , filesUpdated := 0, needCommit := false }).ops) := by
    have h := hwf (walk.foldl (processPath env)
      { existing := seedExisting initDocs, ops := [], filesAdded := 0
      , filesUpdated := 0, needCommit := false }).ops.length
    rwa [List.take_length] at h
  have hops_eq : (runIndexing env initDocs walk).ops
      = (walk.foldl (processPath env)
          { existing := seedExisting initDocs, ops := [], filesAdded := 0
          , filesUpdated := 0, needCommit := false }).ops
        ++ (walk.foldl (processPath env)
          { existing := seedExisting initDocs, ops := [], filesAdded := 0
          , filesUpdated := 0, needCommit := false }).existing.map
            (fun kv => WriterOp.deleteTerm kv.1) := by
    unfold runIndexing finishRun
    split
    · rfl
    · rfl
  rw [hops_eq]
  refine takeClosure_append initDocs _ _ hwf ?_ n
  intro m
  refine applyOps_all_deletes _ ?_ _ hFullW
  intro op hop
  have hop2 := List.mem_of_mem_take hop
  obtain ⟨kv, -, rfl⟩ := List.mem_map.mp hop2
  exact ⟨kv.1, rfl⟩

/-- A concrete environment where every path stats successfully and every
writer call succeeds. -/
def envAllOk : FsEnv :=
  { stat := fun _ => some metaFile
  , content := fun _ => none
  , addOk := fun _ => true
  , commitOk := true
  , commitMsg := "" }

/-- C1 (counterexample): when the walker delivers the same path twice in
one walk, the second sighting is NOT a matching-mtime no-op update — the
path is no longer in `existing`, so the coordinator counts it as a fresh
add (`files_added = 2`, `files_updated = 0`) and emits a second add with
no preceding delete-by-term, leaving two live documents with the same
`file_path` in the committed state. -/
theorem c1_duplicate_walk_counterexample :
    ¬ UniquePaths (applyOps []
        (runIndexing envAllOk [] [⟨["f.txt"]⟩, ⟨["f.txt"]⟩]).ops)
    ∧ (runIndexing envAllOk [] [⟨["f.txt"]⟩, ⟨["f.txt"]⟩]).filesAdded = 2
    ∧ (runIndexing envAllOk [] [⟨["f.txt"]⟩, ⟨["f.txt"]⟩]).filesUpdated = 0 := by
  refine ⟨?_, ?_, ?_⟩ <;> decide

/-- C1 (witness for the amended theorem): a duplicate-free walk over the
same environment keeps the committed paths unique. -/
theorem c1_unique_paths_witness :
    UniquePaths (applyOps []
      ((runIndexing envAllOk [] [⟨["f.txt"]⟩]).ops.take 5)) :=
  c1_unique_paths envAllOk [] [⟨["f.txt"]⟩] (List.Pairwise.nil) (by decide) 5
